import Mathlib

/-!
Shallow embedding of the `conntrack` admission controller (package
`conntrack`, file `src/unnamed/part_000`).

Modelling decisions:
* `Entry` is the value key (protocol, local addr, remote addr), equality
  structural, exactly as in the Go source.
* `EntryHandle` has the fields `reason`, `e`, `priority` of the Go struct;
  reference identity of Go pointers is modelled by an extra numeric `hid`
  field so that two handles for the same Entry can be distinct values.
  The timestamps (`created`, `expires`) and the back pointer `i` play no
  role in any claim and are omitted.
* `stmutil.Mappish` is modelled as an association list from keys to
  `Finset EntryHandle` (`stmutil.Settish` becomes `Finset EntryHandle`);
  `Get`, `Set`, `Delete`, `Len` become `mget`, `mset`, `mdel`, `mlen`.
* `waitersByPriority` is sorted descending by priority and `iter.First`
  over it yields the greatest priority key; this is modelled by `topPrio`,
  the maximum of the key list (order of the association list is irrelevant
  to the maximum).
* An STM transaction is a pure function on the whole `Instance` state.
  The body of the transactional retry loop of `Instance.Wait`
  (lines 131-150) is `Instance.waitTx`; its possible outcomes are the
  constructors of `TxResult` (`tx.Return(true)` on the fast path is
  `shared`, `tx.Return(true)` after the fairness check is `admitted`,
  `tx.Return(false)` is `cancelled`, `tx.Retry()` is `retryTx` and the
  panic is `panicked`).  The loop itself, re-run against the sequence of
  states produced by concurrent transactions, is `Instance.waitLoop`
  driven by a list of snapshots `(state, ctxDone)`.  The epilogue of
  `Wait` (lines 151-157: deregistration and the nil return) is
  `Instance.waitFinish`.
-/

namespace Conntrack

/-- The tracked key: three opaque strings, structural equality
(Go struct `Entry`). -/
structure Entry where
  protocol : String
  localAddr : String
  remoteAddr : String
deriving DecidableEq, Repr

/-- A caller's claim on an `Entry` (Go struct `EntryHandle`); `hid` models
pointer identity. -/
structure EntryHandle where
  hid : Nat
  reason : String
  e : Entry
  priority : Int
deriving DecidableEq, Repr

/-- `stmutil.Settish` holding entry handles. -/
abbrev HSet := Finset EntryHandle

/-- `stmutil.Mappish` from keys to handle sets, as an association list. -/
abbrev Mappish (K : Type) := List (K × HSet)

/-- `Mappish.Get`: value of the first binding of `k`, if any. -/
def mget {K : Type} [DecidableEq K] : Mappish K → K → Option HSet
  | [], _ => none
  | p :: rest, k => if p.1 = k then some p.2 else mget rest k

/-- `Mappish.Set`: replace the binding of `k`, appending if absent. -/
def mset {K : Type} [DecidableEq K] : Mappish K → K → HSet → Mappish K
  | [], k, v => [(k, v)]
  | p :: rest, k, v => if p.1 = k then (k, v) :: rest else p :: mset rest k v

/-- `Mappish.Delete`: remove every binding of `k`. -/
def mdel {K : Type} [DecidableEq K] : Mappish K → K → Mappish K
  | [], _ => []
  | p :: rest, k => if p.1 = k then mdel rest k else p :: mdel rest k

/-- `Mappish.Len`: the number of bindings. -/
def mlen {K : Type} (m : Mappish K) : Nat := m.length

/-- The key list of a map (iteration order of the bindings). -/
def mkeys {K : Type} (m : Mappish K) : List K := m.map Prod.fst

/-- Maximum of a list of priorities; `none` on the empty list. -/
def listMax : List Int → Option Int
  | [] => none
  | x :: xs =>
    match listMax xs with
    | none => some x
    | some y => some (max x y)

/-- First key of the descending-sorted `waitersByPriority` map, i.e. the
greatest priority present (`iter.First` in `Wait`, line 138). -/
def topPrio (m : Mappish Int) : Option Int := listMax (mkeys m)

/-- `deleteFromMapToSet` (lines 76-87): remove `x` from the set bound to
`k`, dropping the binding when the set becomes empty; the boolean reports
whether the binding is gone. -/
def deleteFromMapToSet {K : Type} [DecidableEq K] (m : Mappish K) (k : K)
    (x : EntryHandle) : Mappish K × Bool :=
  match mget m k with
  | none => (m, true)
  | some s =>
    let s' := s.erase x
    if s'.card = 0 then (mdel m k, true) else (mset m k s', false)

/-- `addToMapToSet` (lines 105-113): add `x` to the set bound to `k`,
creating a singleton binding when `k` is absent. -/
def addToMapToSet {K : Type} [DecidableEq K] (m : Mappish K) (k : K)
    (x : EntryHandle) : Mappish K :=
  match mget m k with
  | some s => mset m k (insert x s)
  | none => mset m k ({x} : HSet)

/-- The admission controller state (Go struct `Instance`); each `stm.Var`
becomes a field. -/
structure Instance where
  maxEntries : Int
  noMaxEntries : Bool
  entries : Mappish Entry
  waitersByPriority : Mappish Int
  waitersByReason : Mappish String
  waitersByEntry : Mappish Entry
  waiters : HSet
deriving DecidableEq

/-- `NewInstance` (lines 37-56): default capacity `1 << 14`, bounded,
empty tables. -/
def NewInstance : Instance :=
  { maxEntries := 2 ^ 14
    noMaxEntries := false
    entries := []
    waitersByPriority := []
    waitersByReason := []
    waitersByEntry := []
    waiters := (∅ : HSet) }

/-- `Instance.SetNoMaxEntries` (lines 58-60). -/
def Instance.SetNoMaxEntries (st : Instance) : Instance :=
  { st with noMaxEntries := true }

/-- `Instance.SetMaxEntries` (lines 62-67): one transaction setting both
capacity variables. -/
def Instance.SetMaxEntries (st : Instance) (m : Int) : Instance :=
  { st with noMaxEntries := false, maxEntries := m }

/-- `Instance.remove` (lines 69-74): drop the handle from the entries
table. -/
def Instance.remove (st : Instance) (eh : EntryHandle) : Instance :=
  { st with entries := (deleteFromMapToSet st.entries eh.e eh).1 }

/-- `Instance.deleteWaiter` (lines 89-94): one transaction removing the
handle from all four waiter registries. -/
def Instance.deleteWaiter (st : Instance) (eh : EntryHandle) : Instance :=
  { st with
    waiters := st.waiters.erase eh
    waitersByPriority := (deleteFromMapToSet st.waitersByPriority eh.priority eh).1
    waitersByReason := (deleteFromMapToSet st.waitersByReason eh.reason eh).1
    waitersByEntry := (deleteFromMapToSet st.waitersByEntry eh.e eh).1 }

/-- `Instance.addWaiter` (lines 96-103): one transaction adding the handle
to all four waiter registries. -/
def Instance.addWaiter (st : Instance) (eh : EntryHandle) : Instance :=
  { st with
    waitersByPriority := addToMapToSet st.waitersByPriority eh.priority eh
    waitersByReason := addToMapToSet st.waitersByReason eh.reason eh
    waitersByEntry := addToMapToSet st.waitersByEntry eh.e eh
    waiters := insert eh st.waiters }

/-- `haveRoom` of `Wait` (line 137). -/
def Instance.haveRoom (st : Instance) : Bool :=
  st.noMaxEntries || decide ((mlen st.entries : Int) < st.maxEntries)

/-- Outcome of one evaluation of the transaction body of `Wait`. -/
inductive TxResult where
  | shared (st : Instance)
  | admitted (st : Instance)
  | cancelled
  | retryTx
  | panicked
deriving DecidableEq

/-- The transaction body of `Instance.Wait` (lines 131-150) evaluated on
state `st` with the context-done flag `d`. -/
def Instance.waitTx (st : Instance) (eh : EntryHandle) (d : Bool) : TxResult :=
  match mget st.entries eh.e with
  | some s => .shared { st with entries := mset st.entries eh.e (insert eh s) }
  | none =>
    match topPrio st.waitersByPriority with
    | none => .panicked
    | some tp =>
      if st.haveRoom && decide (eh.priority = tp) then
        .admitted { st with entries := addToMapToSet st.entries eh.e eh }
      else if d then .cancelled
      else .retryTx

/-- Value returned by the retry loop of `Wait`. -/
inductive WaitResult where
  | granted (eh : EntryHandle)
  | nilHandle
  | panicAbort
deriving DecidableEq, Repr

/-- The transactional retry loop of `Wait`, re-evaluated against the given
sequence of `(state, ctxDone)` snapshots; `none` means every snapshot
asked for a retry (the call is still blocked). -/
def Instance.waitLoop (eh : EntryHandle) : List (Instance × Bool) → Option WaitResult
  | [] => none
  | (st, d) :: rest =>
    match st.waitTx eh d with
    | .shared _ => some (.granted eh)
    | .admitted _ => some (.granted eh)
    | .cancelled => some .nilHandle
    | .panicked => some .panicAbort
    | .retryTx => Instance.waitLoop eh rest

/-- The epilogue of `Wait` (lines 151-157): deregister the handle from the
waiter registries and return it, or nil when the loop reported failure. -/
def Instance.waitFinish (st : Instance) (eh : EntryHandle) (success : Bool) :
    Instance × Option EntryHandle :=
  (st.deleteWaiter eh, if success then some eh else none)

/-- `x` lies in the set bound to `k` in `m`. -/
def inBucket {K : Type} [DecidableEq K] (m : Mappish K) (k : K) (x : EntryHandle) : Prop :=
  ∃ s, mget m k = some s ∧ x ∈ s

/-- Every occurrence of a handle in a keyed waiter registry is in the
bucket matching the handle's own field. -/
def OwnKeys (st : Instance) : Prop :=
  (∀ x k, inBucket st.waitersByPriority k x → k = x.priority) ∧
  (∀ x r, inBucket st.waitersByReason r x → r = x.reason) ∧
  (∀ x e, inBucket st.waitersByEntry e x → e = x.e)

/-- The central consistency invariant: a handle is in the flat waiter set
iff it is in the matching bucket of each keyed waiter registry. -/
def RegistryIff (st : Instance) : Prop :=
  ∀ x : EntryHandle,
    x ∈ st.waiters ↔
      (inBucket st.waitersByPriority x.priority x ∧
       inBucket st.waitersByReason x.reason x ∧
       inBucket st.waitersByEntry x.e x)

/-- No binding of the map carries an empty handle set. -/
def NoEmptyBuckets {K : Type} (m : Mappish K) : Prop :=
  ∀ p ∈ m, p.2 ≠ (∅ : HSet)

/-- One atomic state transition of the controller: any `stm.Atomically`
block of the source. -/
inductive Step : Instance → Instance → Prop
  | setMax (st : Instance) (n : Int) : Step st (st.SetMaxEntries n)
  | setNoMax (st : Instance) : Step st st.SetNoMaxEntries
  | rem (st : Instance) (eh : EntryHandle) : Step st (st.remove eh)
  | addW (st : Instance) (eh : EntryHandle) : Step st (st.addWaiter eh)
  | delW (st : Instance) (eh : EntryHandle) : Step st (st.deleteWaiter eh)
  | txCommit (st st' : Instance) (eh : EntryHandle) (d : Bool)
      (h : st.waitTx eh d = .shared st' ∨ st.waitTx eh d = .admitted st') :
      Step st st'

/-- States reachable from `NewInstance` through the controller's atomic
transactions. -/
def Reachable (st : Instance) : Prop :=
  Relation.ReflTransGen Step NewInstance st

section MapLemmas

variable {K : Type} [DecidableEq K]

theorem mget_mset_self (m : Mappish K) (k : K) (v : HSet) :
    mget (mset m k v) k = some v := by
  induction m with
  | nil => simp [mset, mget]
  | cons p rest ih =>
    by_cases h : p.1 = k
    · simp [mset, h, mget]
    · simp [mset, h, mget, ih]

theorem mget_mset_ne (m : Mappish K) (k k' : K) (v : HSet) (h : k' ≠ k) :
    mget (mset m k v) k' = mget m k' := by
  induction m with
  | nil => simp [mset, mget, Ne.symm h]
  | cons p rest ih =>
    by_cases hp : p.1 = k
    · subst hp
      simp [mset, mget, Ne.symm h]
    · simp [mset, hp, mget, ih]

theorem mget_mdel_self (m : Mappish K) (k : K) :
    mget (mdel m k) k = none := by
  induction m with
  | nil => simp [mdel, mget]
  | cons p rest ih =>
    by_cases h : p.1 = k
    · simp [mdel, h, ih]
    · simp [mdel, h, mget, ih]

theorem mget_mdel_ne (m : Mappish K) (k k' : K) (h : k' ≠ k) :
    mget (mdel m k) k' = mget m k' := by
  induction m with
  | nil => simp [mdel]
  | cons p rest ih =>
    by_cases hp : p.1 = k
    · subst hp
      simp [mdel, mget, Ne.symm h, ih]
    · simp [mdel, hp, mget, ih]

theorem mset_mset_self (m : Mappish K) (k : K) (v w : HSet) :
    mset (mset m k v) k w = mset m k w := by
  induction m with
  | nil => simp [mset]
  | cons p rest ih =>
    by_cases h : p.1 = k
    · simp [mset, h]
    · simp [mset, h, ih]

theorem mem_mset (m : Mappish K) (k : K) (v : HSet) (p : K × HSet)
    (hp : p ∈ mset m k v) : p = (k, v) ∨ p ∈ m := by
  induction m with
  | nil => simpa [mset] using hp
  | cons q rest ih =>
    by_cases h : q.1 = k
    · rcases (by simpa [mset, h] using hp : p = (k, v) ∨ p ∈ rest) with h1 | h1
      · exact Or.inl h1
      · exact Or.inr (List.mem_cons_of_mem _ h1)
    · rcases (by simpa [mset, h] using hp : p = q ∨ p ∈ mset rest k v) with h1 | h1
      · exact Or.inr (h1 ▸ List.mem_cons_self _ _)
      · rcases ih h1 with h2 | h2
        · exact Or.inl h2
        · exact Or.inr (List.mem_cons_of_mem _ h2)

theorem mem_mdel (m : Mappish K) (k : K) (p : K × HSet)
    (hp : p ∈ mdel m k) : p ∈ m := by
  induction m with
  | nil => simp [mdel] at hp
  | cons q rest ih =>
    by_cases h : q.1 = k
    · exact List.mem_cons_of_mem _ (ih (by simpa [mdel, h] using hp))
    · rcases (by simpa [mdel, h] using hp : p = q ∨ p ∈ mdel rest k) with h1 | h1
      · exact h1 ▸ List.mem_cons_self _ _
      · exact List.mem_cons_of_mem _ (ih h1)

end MapLemmas

section BucketLemmas

variable {K : Type} [DecidableEq K]

theorem listMax_eq_none (l : List Int) (h : listMax l = none) : l = [] := by
  cases l with
  | nil => rfl
  | cons x xs => cases hm : listMax xs <;> simp [listMax, hm] at h

theorem listMax_is_ub (l : List Int) (v : Int) (h : listMax l = some v) :
    ∀ a ∈ l, a ≤ v := by
  induction l generalizing v with
  | nil => simp [listMax] at h
  | cons x xs ih =>
    intro a ha
    cases hm : listMax xs with
    | none =>
      have hx : xs = [] := listMax_eq_none xs hm
      subst hx
      simp only [listMax, Option.some.injEq] at h
      rw [List.mem_singleton] at ha
      subst ha
      exact le_of_eq h
    | some y =>
      simp only [listMax, hm, Option.some.injEq] at h
      rcases List.mem_cons.mp ha with rfl | ha2
      · exact h ▸ le_max_left a y
      · exact h ▸ le_trans (ih y hm a ha2) (le_max_right x y)

theorem listMax_ne_none (l : List Int) (a : Int) (ha : a ∈ l) :
    listMax l ≠ none := by
  cases l with
  | nil => simp at ha
  | cons x xs =>
    cases hm : listMax xs with
    | none => simp [listMax, hm]
    | some y => simp [listMax, hm]

theorem mget_mem_keys (m : Mappish K) (k : K) (s : HSet)
    (h : mget m k = some s) : k ∈ mkeys m := by
  induction m with
  | nil => simp [mget] at h
  | cons p rest ih =>
    by_cases hp : p.1 = k
    · simp [mkeys, hp]
    · simp [mget, hp] at h
      simp [mkeys]
      exact Or.inr (by simpa [mkeys] using ih h)

theorem not_inBucket_delete_self (m : Mappish K) (k : K) (x : EntryHandle) :
    ¬ inBucket (deleteFromMapToSet m k x).1 k x := by
  unfold deleteFromMapToSet
  cases hc : mget m k with
  | none => rintro ⟨s, hs, _⟩; simp [hc] at hs
  | some s =>
    by_cases hcard : (s.erase x).card = 0
    · simp [hcard]
      rintro ⟨t, ht, hx⟩
      rw [mget_mdel_self] at ht
      cases ht
    · simp [hcard]
      rintro ⟨t, ht, hx⟩
      rw [mget_mset_self] at ht
      cases ht
      exact Finset.not_mem_erase x s hx

theorem mget_delete_ne (m : Mappish K) (k k' : K) (x : EntryHandle)
    (h : k' ≠ k) : mget (deleteFromMapToSet m k x).1 k' = mget m k' := by
  unfold deleteFromMapToSet
  cases hc : mget m k with
  | none => rfl
  | some s =>
    by_cases hcard : (s.erase x).card = 0
    · simp [hcard, mget_mdel_ne m k k' h]
    · simp [hcard, mget_mset_ne m k k' _ h]

theorem inBucket_delete_iff (m : Mappish K) (k k' : K) (x x' : EntryHandle)
    (hx : x' ≠ x) :
    inBucket (deleteFromMapToSet m k x).1 k' x' ↔ inBucket m k' x' := by
  by_cases hk : k' = k
  · subst hk
    unfold deleteFromMapToSet
    cases hc : mget m k' with
    | none => exact Iff.rfl
    | some s =>
      by_cases hcard : (s.erase x).card = 0
      · simp only [hcard, if_pos]
        constructor
        · rintro ⟨t, ht, hxt⟩
          rw [mget_mdel_self] at ht
          cases ht
        · rintro ⟨t, ht, hxt⟩
          rw [hc] at ht
          cases ht
          have hmem : x' ∈ s.erase x := Finset.mem_erase.mpr ⟨hx, hxt⟩
          have : (s.erase x).card ≠ 0 := by
            intro h0
            rw [Finset.card_eq_zero] at h0
            simp [h0] at hmem
          exact absurd hcard this
      · simp only [hcard, if_neg, ite_false]
        constructor
        · rintro ⟨t, ht, hxt⟩
          rw [mget_mset_self] at ht
          cases ht
          exact ⟨s, hc, (Finset.mem_erase.mp hxt).2⟩
        · rintro ⟨t, ht, hxt⟩
          rw [hc] at ht
          cases ht
          exact ⟨s.erase x, mget_mset_self m k' _, Finset.mem_erase.mpr ⟨hx, hxt⟩⟩
  · unfold inBucket
    rw [mget_delete_ne m k k' x (fun h => hk h)]

theorem inBucket_delete_mono (m : Mappish K) (k k' : K) (x x' : EntryHandle)
    (h : inBucket (deleteFromMapToSet m k x).1 k' x') : inBucket m k' x' := by
  by_cases hk : k' = k
  · subst hk
    unfold deleteFromMapToSet at h
    cases hc : mget m k' with
    | none => rw [hc] at h; exact h
    | some s =>
      rw [hc] at h
      by_cases hcard : (s.erase x).card = 0
      · simp only [hcard, if_pos] at h
        obtain ⟨t, ht, _⟩ := h
        rw [mget_mdel_self] at ht
        cases ht
      · simp only [hcard, if_neg, ite_false] at h
        obtain ⟨t, ht, hxt⟩ := h
        rw [mget_mset_self] at ht
        cases ht
        exact ⟨s, hc, (Finset.mem_erase.mp hxt).2⟩
  · unfold inBucket at h ⊢
    rwa [mget_delete_ne m k k' x (fun h => hk h)] at h

theorem inBucket_add_self (m : Mappish K) (k : K) (x : EntryHandle) :
    inBucket (addToMapToSet m k x) k x := by
  unfold addToMapToSet
  cases hc : mget m k with
  | none => exact ⟨{x}, mget_mset_self m k _, Finset.mem_singleton_self x⟩
  | some s => exact ⟨insert x s, mget_mset_self m k _, Finset.mem_insert_self x s⟩

theorem inBucket_add_iff (m : Mappish K) (k k' : K) (x x' : EntryHandle)
    (hx : x' ≠ x) :
    inBucket (addToMapToSet m k x) k' x' ↔ inBucket m k' x' := by
  by_cases hk : k' = k
  · subst hk
    unfold addToMapToSet
    cases hc : mget m k' with
    | none =>
      unfold inBucket
      rw [mget_mset_self]
      simp [hc, hx]
    | some s =>
      unfold inBucket
      rw [mget_mset_self]
      simp [hc, hx]
  · unfold addToMapToSet inBucket
    cases hc : mget m k with
    | none => rw [mget_mset_ne m k k' _ (fun h => hk h)]
    | some s => rw [mget_mset_ne m k k' _ (fun h => hk h)]

theorem inBucket_add_inv (m : Mappish K) (k k' : K) (x x' : EntryHandle)
    (h : inBucket (addToMapToSet m k x) k' x') :
    inBucket m k' x' ∨ (x' = x ∧ k' = k) := by
  by_cases hx : x' = x
  · by_cases hk : k' = k
    · exact Or.inr ⟨hx, hk⟩
    · left
      unfold addToMapToSet inBucket at h
      cases hc : mget m k with
      | none => rw [hc, mget_mset_ne m k k' _ (fun hh => hk hh)] at h; exact h
      | some s => rw [hc, mget_mset_ne m k k' _ (fun hh => hk hh)] at h; exact h
  · exact Or.inl ((inBucket_add_iff m k k' x x' hx).mp h)

theorem noEmpty_mset (m : Mappish K) (k : K) (v : HSet)
    (h : NoEmptyBuckets m) (hv : v ≠ (∅ : HSet)) : NoEmptyBuckets (mset m k v) := by
  intro p hp
  rcases mem_mset m k v p hp with rfl | hp'
  · exact hv
  · exact h p hp'

theorem noEmpty_mdel (m : Mappish K) (k : K)
    (h : NoEmptyBuckets m) : NoEmptyBuckets (mdel m k) :=
  fun p hp => h p (mem_mdel m k p hp)

theorem noEmpty_add (m : Mappish K) (k : K) (x : EntryHandle)
    (h : NoEmptyBuckets m) : NoEmptyBuckets (addToMapToSet m k x) := by
  unfold addToMapToSet
  cases hc : mget m k with
  | none => exact noEmpty_mset m k _ h (Finset.singleton_ne_empty x)
  | some s => exact noEmpty_mset m k _ h (Finset.insert_ne_empty x s)

theorem noEmpty_delete (m : Mappish K) (k : K) (x : EntryHandle)
    (h : NoEmptyBuckets m) : NoEmptyBuckets (deleteFromMapToSet m k x).1 := by
  unfold deleteFromMapToSet
  cases hc : mget m k with
  | none => exact h
  | some s =>
    by_cases hcard : (s.erase x).card = 0
    · simp only [hcard, if_pos]
      exact noEmpty_mdel m k h
    · simp only [hcard, if_neg, ite_false]
      refine noEmpty_mset m k _ h ?_
      intro he
      exact hcard (by simp [he])

theorem deleteFromMapToSet_idem (m : Mappish K) (k : K) (x : EntryHandle) :
    (deleteFromMapToSet (deleteFromMapToSet m k x).1 k x).1
      = (deleteFromMapToSet m k x).1 := by
  cases hc : mget m k with
  | none =>
    have h1 : deleteFromMapToSet m k x = (m, true) := by
      unfold deleteFromMapToSet
      rw [hc]
    rw [h1]
    simp [h1]
  | some s =>
    by_cases hcard : (s.erase x).card = 0
    · have h1 : deleteFromMapToSet m k x = (mdel m k, true) := by
        unfold deleteFromMapToSet
        rw [hc]
        simp [hcard]
      have h3 : deleteFromMapToSet (mdel m k) k x = (mdel m k, true) := by
        unfold deleteFromMapToSet
        rw [mget_mdel_self]
      rw [h1]
      simp [h3]
    · have h1 : deleteFromMapToSet m k x = (mset m k (s.erase x), false) := by
        unfold deleteFromMapToSet
        rw [hc]
        simp [hcard]
      have h3 : deleteFromMapToSet (mset m k (s.erase x)) k x
          = (mset (mset m k (s.erase x)) k ((s.erase x).erase x), false) := by
        unfold deleteFromMapToSet
        rw [mget_mset_self]
        simp [Finset.erase_idem, hcard]
      rw [h1]
      simp [h3, Finset.erase_idem, mset_mset_self]

end BucketLemmas

section TxLemmas

theorem waitTx_shared_inv (st : Instance) (eh : EntryHandle) (d : Bool) (st' : Instance)
    (h : st.waitTx eh d = .shared st') :
    ∃ s, mget st.entries eh.e = some s ∧
      st' = { st with entries := mset st.entries eh.e (insert eh s) } := by
  unfold Instance.waitTx at h
  split at h
  next s hs => exact ⟨s, hs, (TxResult.shared.inj h).symm⟩
  next hs =>
    split at h
    next => simp at h
    next tp ht =>
      split at h
      next => simp at h
      next => split at h <;> simp at h

theorem waitTx_admitted_inv (st : Instance) (eh : EntryHandle) (d : Bool) (st' : Instance)
    (h : st.waitTx eh d = .admitted st') :
    mget st.entries eh.e = none ∧ st.haveRoom = true ∧
      topPrio st.waitersByPriority = some eh.priority ∧
      st' = { st with entries := addToMapToSet st.entries eh.e eh } := by
  unfold Instance.waitTx at h
  split at h
  next s hs => simp at h
  next hs =>
    split at h
    next => simp at h
    next tp ht =>
      split at h
      next hc =>
        rw [Bool.and_eq_true] at hc
        have hp : eh.priority = tp := of_decide_eq_true hc.2
        exact ⟨hs, hc.1, by rw [ht, hp], (TxResult.admitted.inj h).symm⟩
      next => split at h <;> simp at h

theorem waitTx_cancelled_inv (st : Instance) (eh : EntryHandle) (d : Bool)
    (h : st.waitTx eh d = .cancelled) :
    d = true ∧ mget st.entries eh.e = none := by
  unfold Instance.waitTx at h
  split at h
  next s hs => simp at h
  next hs =>
    split at h
    next => simp at h
    next tp ht =>
      split at h
      next => simp at h
      next =>
        split at h
        next hd => exact ⟨hd, hs⟩
        next => simp at h

theorem waitTx_not_panicked (st : Instance) (eh : EntryHandle) (d : Bool)
    (hreg : (mget st.waitersByPriority eh.priority).isSome = true) :
    st.waitTx eh d ≠ .panicked := by
  intro h
  unfold Instance.waitTx at h
  split at h
  next s hs => simp at h
  next hs =>
    split at h
    next ht =>
      obtain ⟨s, hsome⟩ := Option.isSome_iff_exists.mp hreg
      exact listMax_ne_none (mkeys st.waitersByPriority) eh.priority
        (mget_mem_keys _ _ _ hsome) ht
    next tp ht =>
      split at h
      next => simp at h
      next => split at h <;> simp at h

theorem waitTx_done_not_retry (st : Instance) (eh : EntryHandle)
    (h : st.waitTx eh true = .retryTx) : False := by
  unfold Instance.waitTx at h
  split at h
  next s hs => simp at h
  next hs =>
    split at h
    next => simp at h
    next tp ht =>
      split at h
      next => simp at h
      next =>
        split at h
        next => simp at h
        next hd => exact hd rfl

end TxLemmas

section Preservation

theorem registryIff_addWaiter (st : Instance) (eh : EntryHandle)
    (h : RegistryIff st) : RegistryIff (st.addWaiter eh) := by
  intro x
  by_cases hx : x = eh
  · subst hx
    constructor
    · intro _
      exact ⟨inBucket_add_self _ _ _, inBucket_add_self _ _ _, inBucket_add_self _ _ _⟩
    · intro _
      exact Finset.mem_insert_self x st.waiters
  · constructor
    · intro hw
      have hw' : x ∈ st.waiters := by
        rcases Finset.mem_insert.mp hw with h1 | h1
        · exact absurd h1 hx
        · exact h1
      obtain ⟨h1, h2, h3⟩ := (h x).mp hw'
      exact ⟨(inBucket_add_iff _ _ _ _ _ hx).mpr h1,
             (inBucket_add_iff _ _ _ _ _ hx).mpr h2,
             (inBucket_add_iff _ _ _ _ _ hx).mpr h3⟩
    · intro hb
      obtain ⟨h1, h2, h3⟩ := hb
      exact Finset.mem_insert_of_mem ((h x).mpr
        ⟨(inBucket_add_iff _ _ _ _ _ hx).mp h1,
         (inBucket_add_iff _ _ _ _ _ hx).mp h2,
         (inBucket_add_iff _ _ _ _ _ hx).mp h3⟩)

theorem registryIff_deleteWaiter (st : Instance) (eh : EntryHandle)
    (h : RegistryIff st) : RegistryIff (st.deleteWaiter eh) := by
  intro x
  by_cases hx : x = eh
  · subst hx
    apply iff_of_false
    · exact fun hw => Finset.not_mem_erase x st.waiters hw
    · intro hb
      exact not_inBucket_delete_self _ _ _ hb.1
  · constructor
    · intro hw
      have hw' : x ∈ st.waiters := (Finset.mem_erase.mp hw).2
      obtain ⟨h1, h2, h3⟩ := (h x).mp hw'
      exact ⟨(inBucket_delete_iff _ _ _ _ _ hx).mpr h1,
             (inBucket_delete_iff _ _ _ _ _ hx).mpr h2,
             (inBucket_delete_iff _ _ _ _ _ hx).mpr h3⟩
    · intro hb
      refine Finset.mem_erase.mpr ⟨hx, (h x).mpr ?_⟩
      exact ⟨(inBucket_delete_iff _ _ _ _ _ hx).mp hb.1,
             (inBucket_delete_iff _ _ _ _ _ hx).mp hb.2.1,
             (inBucket_delete_iff _ _ _ _ _ hx).mp hb.2.2⟩

theorem ownKeys_addWaiter (st : Instance) (eh : EntryHandle)
    (h : OwnKeys st) : OwnKeys (st.addWaiter eh) := by
  obtain ⟨h1, h2, h3⟩ := h
  refine ⟨fun x k hb => ?_, fun x r hb => ?_, fun x e hb => ?_⟩
  · rcases inBucket_add_inv _ _ _ _ _ hb with hb' | ⟨rfl, rfl⟩
    · exact h1 x k hb'
    · rfl
  · rcases inBucket_add_inv _ _ _ _ _ hb with hb' | ⟨rfl, rfl⟩
    · exact h2 x r hb'
    · rfl
  · rcases inBucket_add_inv _ _ _ _ _ hb with hb' | ⟨rfl, rfl⟩
    · exact h3 x e hb'
    · rfl

theorem ownKeys_deleteWaiter (st : Instance) (eh : EntryHandle)
    (h : OwnKeys st) : OwnKeys (st.deleteWaiter eh) := by
  obtain ⟨h1, h2, h3⟩ := h
  exact ⟨fun x k hb => h1 x k (inBucket_delete_mono _ _ _ _ _ hb),
         fun x r hb => h2 x r (inBucket_delete_mono _ _ _ _ _ hb),
         fun x e hb => h3 x e (inBucket_delete_mono _ _ _ _ _ hb)⟩

/-- The composite state invariant maintained by every atomic transaction. -/
def Inv (st : Instance) : Prop :=
  RegistryIff st ∧ OwnKeys st ∧ NoEmptyBuckets st.entries ∧
    NoEmptyBuckets st.waitersByPriority ∧ NoEmptyBuckets st.waitersByReason ∧
    NoEmptyBuckets st.waitersByEntry

theorem inv_step (st st' : Instance) (hs : Step st st') (h : Inv st) : Inv st' := by
  obtain ⟨hR, hO, hE, hP, hRe, hEn⟩ := h
  cases hs with
  | setMax n => exact ⟨hR, hO, hE, hP, hRe, hEn⟩
  | setNoMax => exact ⟨hR, hO, hE, hP, hRe, hEn⟩
  | rem eh => exact ⟨hR, hO, noEmpty_delete _ _ _ hE, hP, hRe, hEn⟩
  | addW eh =>
    exact ⟨registryIff_addWaiter st eh hR, ownKeys_addWaiter st eh hO, hE,
      noEmpty_add _ _ _ hP, noEmpty_add _ _ _ hRe, noEmpty_add _ _ _ hEn⟩
  | delW eh =>
    exact ⟨registryIff_deleteWaiter st eh hR, ownKeys_deleteWaiter st eh hO, hE,
      noEmpty_delete _ _ _ hP, noEmpty_delete _ _ _ hRe, noEmpty_delete _ _ _ hEn⟩
  | txCommit _ eh d hor =>
    rcases hor with hsh | had
    · obtain ⟨s, hs', rfl⟩ := waitTx_shared_inv st eh d _ hsh
      exact ⟨hR, hO, noEmpty_mset _ _ _ hE (Finset.insert_ne_empty eh s), hP, hRe, hEn⟩
    · obtain ⟨hnone, hroom, htop, rfl⟩ := waitTx_admitted_inv st eh d _ had
      exact ⟨hR, hO, noEmpty_add _ _ _ hE, hP, hRe, hEn⟩

theorem inv_NewInstance : Inv NewInstance := by
  refine ⟨fun x => ?_, ⟨fun x k hb => ?_, fun x r hb => ?_, fun x e hb => ?_⟩,
    fun p hp => ?_, fun p hp => ?_, fun p hp => ?_, fun p hp => ?_⟩
  · simp [NewInstance, inBucket, mget]
  · obtain ⟨s, hs, _⟩ := hb
    simp [NewInstance, mget] at hs
  · obtain ⟨s, hs, _⟩ := hb
    simp [NewInstance, mget] at hs
  · obtain ⟨s, hs, _⟩ := hb
    simp [NewInstance, mget] at hs
  · simp [NewInstance] at hp
  · simp [NewInstance] at hp
  · simp [NewInstance] at hp
  · simp [NewInstance] at hp

theorem reachable_inv (st : Instance) (h : Reachable st) : Inv st := by
  induction h with
  | refl => exact inv_NewInstance
  | tail _ hstep ih => exact inv_step _ _ hstep ih

end Preservation

section LoopLemmas

theorem waitLoop_result (eh : EntryHandle) (trace : List (Instance × Bool))
    (hreg : ∀ p ∈ trace, (mget p.1.waitersByPriority eh.priority).isSome = true) :
    (∀ r, Instance.waitLoop eh trace = some r → r = .granted eh ∨ r = .nilHandle) ∧
    (Instance.waitLoop eh trace = some .nilHandle →
      ∃ st, (st, true) ∈ trace ∧ st.waitTx eh true = .cancelled) := by
  induction trace with
  | nil =>
    constructor
    · intro r hr
      simp [Instance.waitLoop] at hr
    · intro hr
      simp [Instance.waitLoop] at hr
  | cons p rest ih =>
    obtain ⟨st, d⟩ := p
    have hp := hreg (st, d) (List.mem_cons_self _ _)
    have hrest := ih (fun q hq => hreg q (List.mem_cons_of_mem _ hq))
    constructor
    · intro r hr
      simp only [Instance.waitLoop] at hr
      cases htx : st.waitTx eh d with
      | shared s' =>
        rw [htx] at hr
        exact Or.inl (Option.some.inj hr).symm
      | admitted s' =>
        rw [htx] at hr
        exact Or.inl (Option.some.inj hr).symm
      | cancelled =>
        rw [htx] at hr
        exact Or.inr (Option.some.inj hr).symm
      | panicked => exact absurd htx (waitTx_not_panicked st eh d hp)
      | retryTx =>
        rw [htx] at hr
        exact hrest.1 r hr
    · intro hr
      simp only [Instance.waitLoop] at hr
      cases htx : st.waitTx eh d with
      | shared s' =>
        rw [htx] at hr
        simp at hr
      | admitted s' =>
        rw [htx] at hr
        simp at hr
      | cancelled =>
        have hd := (waitTx_cancelled_inv st eh d htx).1
        subst hd
        exact ⟨st, List.mem_cons_self _ _, htx⟩
      | panicked => exact absurd htx (waitTx_not_panicked st eh d hp)
      | retryTx =>
        rw [htx] at hr
        obtain ⟨st2, hmem, hc⟩ := hrest.2 hr
        exact ⟨st2, List.mem_cons_of_mem _ hmem, hc⟩

end LoopLemmas

/-- Sample entry for concrete witness states. -/
def e0 : Entry := { protocol := "udp", localAddr := "l", remoteAddr := "r" }

/-- Sample handle for concrete witness states. -/
def eh0 : EntryHandle := { hid := 0, reason := "", e := e0, priority := 0 }

/-- A second sample handle sharing the entry of `eh0`. -/
def eh1 : EntryHandle := { hid := 1, reason := "test", e := e0, priority := 1 }

/-- C1: when the requested Entry has no current holder, the transaction
body of `Wait` admits the handle into the entries table exactly when
`haveRoom` (no-max flag set, or fewer occupied entries than `maxEntries`)
and the handle's priority equals the top priority of the registered
waiters; a strictly higher-priority registered waiter rules admission
out even when capacity is free. -/
theorem wait_admission_requires_room_and_top_priority
    (st : Instance) (eh : EntryHandle) (d : Bool)
    (hfree : mget st.entries eh.e = none) :
    (st.waitTx eh d = .admitted { st with entries := addToMapToSet st.entries eh.e eh } ↔
      ((st.noMaxEntries = true ∨ (mlen st.entries : Int) < st.maxEntries) ∧
        topPrio st.waitersByPriority = some eh.priority)) ∧
    (∀ q, q ∈ mkeys st.waitersByPriority → eh.priority < q →
      ∀ st', st.waitTx eh d ≠ .admitted st') := by
  constructor
  · constructor
    · intro h
      obtain ⟨_, hroom, htop, _⟩ := waitTx_admitted_inv st eh d _ h
      refine ⟨?_, htop⟩
      rw [Instance.haveRoom, Bool.or_eq_true] at hroom
      rcases hroom with h1 | h1
      · exact Or.inl h1
      · exact Or.inr (of_decide_eq_true h1)
    · rintro ⟨hroom, htop⟩
      have hroomb : st.haveRoom = true := by
        rw [Instance.haveRoom, Bool.or_eq_true]
        rcases hroom with h1 | h1
        · exact Or.inl h1
        · exact Or.inr (decide_eq_true h1)
      simp [Instance.waitTx, hfree, htop, hroomb]
  · intro q hq hlt st' h
    obtain ⟨_, _, htop, _⟩ := waitTx_admitted_inv st eh d _ h
    have := listMax_is_ub (mkeys st.waitersByPriority) eh.priority htop q hq
    omega

/-- Witness for C1 at a concrete state: one registered waiter, empty
entries table, admission granted. -/
theorem wait_admission_requires_room_and_top_priority_witness :
    mget (NewInstance.addWaiter eh0).entries eh0.e = none ∧
    (((NewInstance.addWaiter eh0).waitTx eh0 false =
        .admitted { NewInstance.addWaiter eh0 with
          entries := addToMapToSet (NewInstance.addWaiter eh0).entries eh0.e eh0 } ↔
      (((NewInstance.addWaiter eh0).noMaxEntries = true ∨
          (mlen (NewInstance.addWaiter eh0).entries : Int) <
            (NewInstance.addWaiter eh0).maxEntries) ∧
        topPrio (NewInstance.addWaiter eh0).waitersByPriority = some eh0.priority)) ∧
      (∀ q, q ∈ mkeys (NewInstance.addWaiter eh0).waitersByPriority → eh0.priority < q →
        ∀ st', (NewInstance.addWaiter eh0).waitTx eh0 false ≠ .admitted st')) :=
  ⟨by decide,
   wait_admission_requires_room_and_top_priority (NewInstance.addWaiter eh0) eh0 false
     (by decide)⟩

/-- C2: the retry loop of `Wait`, run over any sequence of snapshots on
which the handle stays registered, yields only the created handle or the
nil result; the nil result arises only from the cancellation branch, and
that branch fires only when the context-done flag is set. -/
theorem wait_nil_iff_cancelled (eh : EntryHandle) (trace : List (Instance × Bool))
    (hreg : ∀ p ∈ trace, (mget p.1.waitersByPriority eh.priority).isSome = true) :
    (∀ r, Instance.waitLoop eh trace = some r → r = .granted eh ∨ r = .nilHandle) ∧
    (Instance.waitLoop eh trace = some .nilHandle →
      ∃ st, (st, true) ∈ trace ∧ st.waitTx eh true = .cancelled) ∧
    (∀ (st : Instance) (d : Bool), st.waitTx eh d = .cancelled → d = true) ∧
    (∀ (st : Instance) (b : Bool), (st.waitFinish eh b).2 = none ↔ b = false) := by
  obtain ⟨h1, h2⟩ := waitLoop_result eh trace hreg
  refine ⟨h1, h2, fun st d h => (waitTx_cancelled_inv st eh d h).1, fun st b => ?_⟩
  cases b <;> simp [Instance.waitFinish]

/-- Witness for C2 on a one-snapshot trace with the context done. -/
theorem wait_nil_iff_cancelled_witness :
    (∀ p ∈ [(NewInstance.addWaiter eh0, true)],
      (mget p.1.waitersByPriority eh0.priority).isSome = true) ∧
    ((∀ r, Instance.waitLoop eh0 [(NewInstance.addWaiter eh0, true)] = some r →
        r = .granted eh0 ∨ r = .nilHandle) ∧
      (Instance.waitLoop eh0 [(NewInstance.addWaiter eh0, true)] = some .nilHandle →
        ∃ st, (st, true) ∈ [(NewInstance.addWaiter eh0, true)] ∧
          st.waitTx eh0 true = .cancelled) ∧
      (∀ (st : Instance) (d : Bool), st.waitTx eh0 d = .cancelled → d = true) ∧
      (∀ (st : Instance) (b : Bool), (st.waitFinish eh0 b).2 = none ↔ b = false)) :=
  ⟨by decide,
   wait_nil_iff_cancelled eh0 [(NewInstance.addWaiter eh0, true)] (by decide)⟩

/-- C3: the deregistration epilogue that every `Wait` call runs before
returning (whatever the outcome flag) leaves the handle absent from the
flat waiter set and from every bucket of the by-priority, by-reason and
by-entry registries, in any reachable state. -/
theorem wait_deregisters_on_return (st : Instance) (eh : EntryHandle) (b : Bool)
    (h : Reachable st) :
    eh ∉ (st.waitFinish eh b).1.waiters ∧
    (∀ k, ¬ inBucket (st.waitFinish eh b).1.waitersByPriority k eh) ∧
    (∀ r, ¬ inBucket (st.waitFinish eh b).1.waitersByReason r eh) ∧
    (∀ e, ¬ inBucket (st.waitFinish eh b).1.waitersByEntry e eh) := by
  obtain ⟨_, ⟨o1, o2, o3⟩, _⟩ := reachable_inv st h
  refine ⟨fun hw => Finset.not_mem_erase eh st.waiters hw,
    fun k hb => ?_, fun r hb => ?_, fun e hb => ?_⟩
  · by_cases hk : k = eh.priority
    · subst hk
      exact not_inBucket_delete_self _ _ _ hb
    · exact hk (o1 eh k (inBucket_delete_mono _ _ _ _ _ hb))
  · by_cases hr : r = eh.reason
    · subst hr
      exact not_inBucket_delete_self _ _ _ hb
    · exact hr (o2 eh r (inBucket_delete_mono _ _ _ _ _ hb))
  · by_cases he : e = eh.e
    · subst he
      exact not_inBucket_delete_self _ _ _ hb
    · exact he (o3 eh e (inBucket_delete_mono _ _ _ _ _ hb))

/-- Witness for C3 at the freshly constructed instance. -/
theorem wait_deregisters_on_return_witness :
    eh0 ∉ (NewInstance.waitFinish eh0 false).1.waiters ∧
    (∀ k, ¬ inBucket (NewInstance.waitFinish eh0 false).1.waitersByPriority k eh0) ∧
    (∀ r, ¬ inBucket (NewInstance.waitFinish eh0 false).1.waitersByReason r eh0) ∧
    (∀ e, ¬ inBucket (NewInstance.waitFinish eh0 false).1.waitersByEntry e eh0) :=
  wait_deregisters_on_return NewInstance eh0 false Relation.ReflTransGen.refl

/-- C4: when the requested Entry already has a holder set, the transaction
body of `Wait` adds the handle to that set and succeeds at once, for every
capacity configuration, every waiter population and every context flag. -/
theorem wait_fast_path_shares_entry (st : Instance) (eh : EntryHandle) (d : Bool)
    (s : HSet) (h : mget st.entries eh.e = some s) :
    st.waitTx eh d = .shared { st with entries := mset st.entries eh.e (insert eh s) } := by
  simp [Instance.waitTx, h]

/-- Witness for C4: an occupied entry shared under a zero-capacity
configuration with a higher-priority waiter present. -/
theorem wait_fast_path_shares_entry_witness :
    mget ((((NewInstance.addWaiter eh1).SetMaxEntries 0)).entries) eh0.e = none ∧
    mget ({ (NewInstance.addWaiter eh1).SetMaxEntries 0 with
        entries := [(e0, ({eh1} : HSet))] }).entries eh0.e = some ({eh1} : HSet) ∧
    ({ (NewInstance.addWaiter eh1).SetMaxEntries 0 with
        entries := [(e0, ({eh1} : HSet))] }).waitTx eh0 false =
      .shared { { (NewInstance.addWaiter eh1).SetMaxEntries 0 with
          entries := [(e0, ({eh1} : HSet))] } with
        entries := mset [(e0, ({eh1} : HSet))] eh0.e (insert eh0 ({eh1} : HSet)) } :=
  ⟨by decide, by decide,
   wait_fast_path_shares_entry
     { (NewInstance.addWaiter eh1).SetMaxEntries 0 with
        entries := [(e0, ({eh1} : HSet))] } eh0 false ({eh1} : HSet) (by decide)⟩

/-- C5: in every reachable state the flat waiter set agrees with the three
keyed registries (membership iff presence in the matching bucket of each),
and the atomic `addWaiter` and `deleteWaiter` transactions preserve this
consistency. -/
theorem registries_updated_consistently (st : Instance) (eh : EntryHandle)
    (h : Reachable st) :
    RegistryIff st ∧ RegistryIff (st.addWaiter eh) ∧ RegistryIff (st.deleteWaiter eh) := by
  have hR := (reachable_inv st h).1
  exact ⟨hR, registryIff_addWaiter st eh hR, registryIff_deleteWaiter st eh hR⟩

/-- Witness for C5 at the freshly constructed instance. -/
theorem registries_updated_consistently_witness :
    RegistryIff NewInstance ∧ RegistryIff (NewInstance.addWaiter eh0) ∧
      RegistryIff (NewInstance.deleteWaiter eh0) :=
  registries_updated_consistently NewInstance eh0 Relation.ReflTransGen.refl

/-- C6: while the handle's own priority is registered in the by-priority
map (as `addWaiter` makes it before the loop), the transaction body of
`Wait` cannot take the panic branch; the panic marks only the state where
no waiter at all is registered. -/
theorem panic_unreachable_while_pending (st stp : Instance) (eh : EntryHandle) (d : Bool)
    (h : (mget st.waitersByPriority eh.priority).isSome = true) :
    st.waitTx eh d ≠ .panicked ∧
    (mget (stp.addWaiter eh).waitersByPriority eh.priority).isSome = true := by
  refine ⟨waitTx_not_panicked st eh d h, ?_⟩
  simp only [Instance.addWaiter]
  obtain ⟨s, hs, _⟩ := inBucket_add_self stp.waitersByPriority eh.priority eh
  simp [hs]

/-- Witness for C6 right after registration. -/
theorem panic_unreachable_while_pending_witness :
    (mget (NewInstance.addWaiter eh0).waitersByPriority eh0.priority).isSome = true ∧
    ((NewInstance.addWaiter eh0).waitTx eh0 false ≠ .panicked ∧
      (mget (NewInstance.addWaiter eh0).waitersByPriority eh0.priority).isSome = true) :=
  ⟨by decide,
   panic_unreachable_while_pending (NewInstance.addWaiter eh0) NewInstance eh0 false
     (by decide)⟩

/-- C7: `SetMaxEntries` and `SetNoMaxEntries` touch only the capacity
configuration: the entries table and all four waiter registries are left
unchanged, so no holder is evicted by any capacity change. -/
theorem capacity_setters_frame (st : Instance) (n : Int) :
    (st.SetMaxEntries n).entries = st.entries ∧
    (st.SetMaxEntries n).waitersByPriority = st.waitersByPriority ∧
    (st.SetMaxEntries n).waitersByReason = st.waitersByReason ∧
    (st.SetMaxEntries n).waitersByEntry = st.waitersByEntry ∧
    (st.SetMaxEntries n).waiters = st.waiters ∧
    st.SetNoMaxEntries.entries = st.entries ∧
    st.SetNoMaxEntries.waitersByPriority = st.waitersByPriority ∧
    st.SetNoMaxEntries.waitersByReason = st.waitersByReason ∧
    st.SetNoMaxEntries.waitersByEntry = st.waitersByEntry ∧
    st.SetNoMaxEntries.waiters = st.waiters ∧
    (st.SetMaxEntries n).maxEntries = n ∧
    (st.SetMaxEntries n).noMaxEntries = false ∧
    st.SetNoMaxEntries.noMaxEntries = true :=
  ⟨rfl, rfl, rfl, rfl, rfl, rfl, rfl, rfl, rfl, rfl, rfl, rfl, rfl⟩

/-- C8: removing a handle from the entries table twice equals removing it
once, so a release frees capacity exactly once. -/
theorem remove_idempotent (st : Instance) (eh : EntryHandle) :
    (st.remove eh).remove eh = st.remove eh := by
  unfold Instance.remove
  simp [deleteFromMapToSet_idem]

/-- C9: `SetMaxEntries` clears the no-max flag in the same transaction in
which it stores the new bound, so after `SetNoMaxEntries` it re-enables
the finite limit for the admission check. -/
theorem setMaxEntries_restores_limit (st : Instance) (n : Int) :
    ((st.SetNoMaxEntries).SetMaxEntries n).noMaxEntries = false ∧
    ((st.SetNoMaxEntries).SetMaxEntries n).maxEntries = n ∧
    ((st.SetNoMaxEntries).SetMaxEntries n).haveRoom
      = decide ((mlen st.entries : Int) < n) := by
  refine ⟨rfl, rfl, ?_⟩
  simp [Instance.haveRoom, Instance.SetMaxEntries, Instance.SetNoMaxEntries]

/-- C10: in every reachable state no binding of the entries table or of a
keyed waiter registry carries an empty handle set, hence the table length
used by the capacity check counts exactly the entries with at least one
holder. -/
theorem no_empty_buckets_and_len (st : Instance) (h : Reachable st) :
    NoEmptyBuckets st.entries ∧ NoEmptyBuckets st.waitersByPriority ∧
    NoEmptyBuckets st.waitersByReason ∧ NoEmptyBuckets st.waitersByEntry ∧
    mlen st.entries = (st.entries.filter (fun p => 0 < p.2.card)).length := by
  obtain ⟨_, _, hE, hP, hRe, hEn⟩ := reachable_inv st h
  refine ⟨hE, hP, hRe, hEn, ?_⟩
  rw [mlen, List.filter_eq_self.mpr ?_]
  intro p hp
  have hne := hE p hp
  simpa [Finset.card_pos, Finset.nonempty_iff_ne_empty] using hne

/-- Witness for C10 at the freshly constructed instance. -/
theorem no_empty_buckets_and_len_witness :
    NoEmptyBuckets NewInstance.entries ∧ NoEmptyBuckets NewInstance.waitersByPriority ∧
    NoEmptyBuckets NewInstance.waitersByReason ∧ NoEmptyBuckets NewInstance.waitersByEntry ∧
    mlen NewInstance.entries =
      (NewInstance.entries.filter (fun p => 0 < p.2.card)).length :=
  no_empty_buckets_and_len NewInstance Relation.ReflTransGen.refl

end Conntrack
